import Mathlib

/- Verification of the stake aggregation and leader-schedule generation
   program (src/main.rs). Machine integers (u64) are modelled as Nat; the
   epochs and stake amounts handled by the binary stay far below 2^64 and no
   arithmetic modelled here overflows. -/

/-- U64_MAX models u64::MAX, the activation_epoch of a never-activated
delegation. -/
def U64_MAX : Nat := 2 ^ 64 - 1

/-- DelegationRecord models the Delegation struct carried in StakeState::Stake
as read by main.rs: voter_pubkey, stake, activation_epoch,
deactivation_epoch. Pubkeys are opaque fixed-length keys with a total order,
modelled as Nat. -/
structure DelegationRecord where
  voter_pubkey : Nat
  stake : Nat
  activation_epoch : Nat
  deactivation_epoch : Nat
deriving DecidableEq, Repr

/-- isActive models the two continue-filters of the aggregation loop in main:
a record is kept iff activation_epoch < epoch and deactivation_epoch >=
epoch. -/
def isActive (r : DelegationRecord) (epoch : Nat) : Bool :=
  !(decide (r.activation_epoch ≥ epoch)) && !(decide (r.deactivation_epoch < epoch))

/-- lookupStake models HashMap lookup on the aggregated table. The
HashMap<Pubkey, u64> itself is modelled as an association list kept strictly
sorted by key (a canonical representation of the unordered map); independence
from iteration order is proved separately. -/
def lookupStake : List (Nat × Nat) → Nat → Option Nat
  | [], _ => none
  | (k2, v) :: rest, k => if k = k2 then some v else lookupStake rest k

/-- addStake models stakes.entry(key).or_insert(0) += v: add v to the entry
of key k, inserting the entry (at its sorted position) when absent. -/
def addStake : List (Nat × Nat) → Nat → Nat → List (Nat × Nat)
  | [], k, v => [(k, v)]
  | (k2, v2) :: rest, k, v =>
    if k < k2 then (k, v) :: (k2, v2) :: rest
    else if k = k2 then (k2, v2 + v) :: rest
    else (k2, v2) :: addStake rest k v

/-- aggStep is one iteration of the aggregation loop on a decoded delegation:
an active record adds its stake to its voter's entry. -/
def aggStep (epoch : Nat) (m : List (Nat × Nat)) (r : DelegationRecord) :
    List (Nat × Nat) :=
  if isActive r epoch then addStake m r.voter_pubkey r.stake else m

/-- aggregate models the aggregation loop of main restricted to the
already-decoded Stake delegations, starting from the empty table. -/
def aggregate (records : List DelegationRecord) (epoch : Nat) : List (Nat × Nat) :=
  records.foldl (aggStep epoch) []

/-- sortedKeys is the representation invariant of the modelled map: keys are
strictly increasing, hence unique. -/
def sortedKeys (m : List (Nat × Nat)) : Prop :=
  m.Pairwise (fun x y => x.1 < y.1)

/-- stakeBefore a b holds when the comparator of sort_stakes orders a at or
before b: primarily descending by stake, ties broken descending by pubkey. -/
def stakeBefore (a b : Nat × Nat) : Prop :=
  b.2 < a.2 ∨ (b.2 = a.2 ∧ b.1 ≤ a.1)

instance : DecidableRel stakeBefore := fun a b => by
  unfold stakeBefore; exact inferInstance

instance : IsTotal (Nat × Nat) stakeBefore :=
  ⟨by intro a b; unfold stakeBefore; omega⟩

instance : IsTrans (Nat × Nat) stakeBefore :=
  ⟨by intro a b c; unfold stakeBefore; omega⟩

instance : IsAntisymm (Nat × Nat) stakeBefore := by
  refine ⟨fun a b h1 h2 => ?_⟩
  obtain ⟨a1, a2⟩ := a
  obtain ⟨b1, b2⟩ := b
  unfold stakeBefore at h1 h2
  simp only [Prod.mk.injEq]
  constructor <;> omega

/-- dedupAdj models Vec::dedup: remove consecutive equal elements. -/
def dedupAdj : List (Nat × Nat) → List (Nat × Nat)
  | [] => []
  | a :: rest =>
    match rest with
    | [] => [a]
    | b :: _ => if a = b then dedupAdj rest else a :: dedupAdj rest

/-- sortStakes models fn sort_stakes: sort by the deterministic total order
stakeBefore, then dedup adjacent equal pairs. The source uses an unstable
comparison sort; stakeBefore is total and antisymmetric, so every comparison
sort yields the same list and insertion sort is a faithful embedding. -/
def sortStakes (stakes : List (Nat × Nat)) : List (Nat × Nat) :=
  dedupAdj (List.insertionSort stakeBefore stakes)

/-- scheduleSeed models the seed derivation in fn leader_schedule: a 32-byte
buffer, all zero except the first 8 bytes, which hold the epoch as a
little-endian u64. -/
def scheduleSeed (epoch : Nat) : List Nat :=
  (List.range 8).map (fun i => epoch / 256 ^ i % 256) ++ List.replicate 24 0

/-- decodeLE reads back a little-endian byte list as a natural number. -/
def decodeLE : List Nat → Nat
  | [] => 0
  | b :: rest => b + 256 * decodeLE rest

/-- Modelled from the spec: the deterministic seeded pseudo-random generator
(ChaCha20 inside solana_ledger::LeaderSchedule::new, a dependency outside
this repository) is modelled as a 64-bit linear congruential generator; every
property proved below is independent of the particular generator. -/
def lcgNext (s : Nat) : Nat := (s * 6364136223846793005 + 1442695040888963407) % 2 ^ 64

/-- seedToState folds the 32 seed bytes into the initial generator state. -/
def seedToState (seed : List Nat) : Nat := seed.foldl (fun a b => a * 256 + b) 0

/-- pickIndex finds the first index whose cumulative weight exceeds the
drawn value u. -/
def pickIndex : List Nat → Nat → Nat
  | [], _ => 0
  | w :: ws, u => if u < w then 0 else pickIndex ws (u - w) + 1

/-- Modelled from the spec: weighted sampling without replacement (spec
section 4.2 step 3). While weighted picks remain, draw uniformly below the
total remaining weight, emit the selected entry and remove it; once only
zero weights remain, emit the rest in sequence order. The fuel argument is
the number of remaining entries. -/
def weightedShuffleGo : Nat → List (Nat × Nat) → Nat → List Nat
  | 0, entries, _ => entries.map Prod.fst
  | fuel + 1, entries, s =>
    let total := (entries.map Prod.snd).sum
    if total = 0 then entries.map Prod.fst
    else
      let s2 := lcgNext s
      let i := pickIndex (entries.map Prod.snd) (s2 % total)
      (entries.getD i (0, 0)).1 :: weightedShuffleGo fuel (entries.eraseIdx i) s2

/-- weightedShuffle runs the sampler over the whole canonical sequence. -/
def weightedShuffle (seed : List Nat) (entries : List (Nat × Nat)) : List Nat :=
  weightedShuffleGo entries.length entries (seedToState seed)

/-- SLOTS_IN_EPOCH is the fixed network constant of main.rs. -/
def SLOTS_IN_EPOCH : Nat := 432000

/-- NUM_CONSECUTIVE_LEADER_SLOTS is the solana_sdk clock constant, 4. -/
def NUM_CONSECUTIVE_LEADER_SLOTS : Nat := 4

/-- MainError models the fatal error conditions of a run (spec section 7). -/
inductive MainError where
  | EmptyStakeSet
  | MalformedRecord (pubkey : Nat)
deriving DecidableEq, Repr

/-- slotLeaderGroups cycles through the permutation, wrapping to its start
when exhausted, until count group leaders are produced (spec section 4.2
step 4). -/
def slotLeaderGroups (perm : List Nat) (count : Nat) : List Nat :=
  (List.range count).map (fun i => perm.getD (i % perm.length) 0)

/-- expandGroups gives each group leader rep consecutive slots. -/
def expandGroups : List Nat → Nat → List Nat
  | [], _ => []
  | g :: gs, rep => List.replicate rep g ++ expandGroups gs rep

/-- leaderSchedule models fn leader_schedule of main.rs: derive the seed from
the epoch and canonicalize the map with sortStakes (both in the source), then
- modelled from the spec, since LeaderSchedule::new and get_slot_leaders live
in the solana_ledger dependency outside this repository - fail on an empty
stake table, weighted-shuffle the canonical sequence and expand it to
SLOTS_IN_EPOCH slots. -/
def leaderSchedule (epoch : Nat) (stakes : List (Nat × Nat)) :
    Except MainError (List Nat) :=
  if stakes = [] then .error .EmptyStakeSet
  else
    let perm := weightedShuffle (scheduleSeed epoch) (sortStakes stakes)
    .ok (expandGroups
      (slotLeaderGroups perm (SLOTS_IN_EPOCH / NUM_CONSECUTIVE_LEADER_SLOTS))
      NUM_CONSECUTIVE_LEADER_SLOTS)

/-- StakeState models the solana_sdk stake state variants decoded by main. -/
inductive StakeState where
  | Uninitialized
  | Initialized (meta : Nat)
  | Stake (meta : Nat) (delegation : DelegationRecord)
  | RewardsPool
deriving DecidableEq, Repr

/-- isStakeVariant tests for the StakeState::Stake arm. -/
def StakeState.isStakeVariant : StakeState → Bool
  | .Stake _ _ => true
  | _ => false

/-- DecodeResult models the outcome of StakeState::deserialize on the raw
account data. -/
inductive DecodeResult where
  | failed
  | ok (s : StakeState)
deriving DecidableEq, Repr

/-- Account models a fetched stake-program account: its data length and what
the borsh decoder yields on that data. -/
structure Account where
  dataLen : Nat
  decoded : DecodeResult
deriving DecidableEq, Repr

/-- processAccount models one iteration of the aggregation loop of main:
zero-length data is skipped, a decode failure aborts the run, a Stake variant
is filtered by isActive against current_epoch, every other variant is
ignored. -/
def processAccount (current_epoch : Nat) (m : List (Nat × Nat))
    (acct : Nat × Account) : Except MainError (List (Nat × Nat)) :=
  if acct.2.dataLen = 0 then .ok m
  else
    match acct.2.decoded with
    | .failed => .error (.MalformedRecord acct.1)
    | .ok s =>
      match s with
      | .Stake _ d =>
        .ok (if isActive d current_epoch then addStake m d.voter_pubkey d.stake else m)
      | _ => .ok m

/-- aggregateAccounts models the full aggregation loop of main. -/
def aggregateAccounts : List (Nat × Account) → Nat → List (Nat × Nat) →
    Except MainError (List (Nat × Nat))
  | [], _, m => .ok m
  | a :: rest, ce, m =>
    match processAccount ce m a with
    | .error e => .error e
    | .ok m2 => aggregateAccounts rest ce m2

/-- mainOutput models the tail of main: the header names current_epoch + 1
and the slot leaders come from leader_schedule(current_epoch + 1, stakes),
while the stake table itself was aggregated against current_epoch. -/
def mainOutput (accounts : List (Nat × Account)) (current_epoch : Nat) :
    Except MainError (Nat × List Nat) :=
  match aggregateAccounts accounts current_epoch [] with
  | .error e => .error e
  | .ok stakes =>
    match leaderSchedule (current_epoch + 1) stakes with
    | .error e => .error e
    | .ok ls => .ok (current_epoch + 1, ls)

/-- accountDelegations lists, in account order, the delegation records of the
fetched accounts that the loop of main actually considers: non-empty data
decoding to the StakeState::Stake variant. -/
def accountDelegations : List (Nat × Account) → List DelegationRecord
  | [] => []
  | (_, a) :: rest =>
    if a.dataLen = 0 then accountDelegations rest
    else
      match a.decoded with
      | .ok (.Stake _ d) => d :: accountDelegations rest
      | _ => accountDelegations rest

/-- Membership in the key set after addStake: exactly the old keys plus k. -/
theorem mem_fst_addStake {m : List (Nat × Nat)} {k v x : Nat} :
    x ∈ (addStake m k v).map Prod.fst ↔ x = k ∨ x ∈ m.map Prod.fst := by
  induction m with
  | nil => simp [addStake]
  | cons hd tl ih =>
    obtain ⟨k0, v0⟩ := hd
    by_cases h1 : k < k0
    · simp [addStake, h1]
    · by_cases h2 : k = k0
      · subst h2
        simp [addStake, h1]
      · simp [addStake, h1, h2, ih]
        tauto

/-- addStake preserves the strictly-sorted-keys invariant. -/
theorem sortedKeys_addStake {m : List (Nat × Nat)} {k v : Nat} (h : sortedKeys m) :
    sortedKeys (addStake m k v) := by
  induction m with
  | nil => simp [addStake, sortedKeys]
  | cons hd tl ih =>
    obtain ⟨k0, v0⟩ := hd
    rw [sortedKeys, List.pairwise_cons] at h
    obtain ⟨hhead, htail⟩ := h
    by_cases h1 : k < k0
    · rw [sortedKeys]
      simp only [addStake, if_pos h1]
      rw [List.pairwise_cons]
      constructor
      · intro y hy
        rcases List.mem_cons.mp hy with hy | hy
        · subst hy; exact h1
        · exact h1.trans (hhead y hy)
      · rw [List.pairwise_cons]
        exact ⟨hhead, htail⟩
    · by_cases h2 : k = k0
      · subst h2
        have he : addStake ((k, v0) :: tl) k v = (k, v0 + v) :: tl := by
          simp [addStake, h1]
        rw [sortedKeys, he, List.pairwise_cons]
        exact ⟨hhead, htail⟩
      · rw [sortedKeys]
        simp only [addStake, if_neg h1, if_neg h2]
        rw [List.pairwise_cons]
        constructor
        · intro y hy
          have hy1 : y.1 ∈ (addStake tl k v).map Prod.fst := List.mem_map_of_mem Prod.fst hy
          rcases mem_fst_addStake.mp hy1 with hk | hk
          · rw [hk]; omega
          · rcases List.mem_map.mp hk with ⟨z, hz, hz1⟩
            have := hhead z hz
            omega
        · exact ih htail

/-- Lookup of an absent key is none. -/
theorem lookup_none {m : List (Nat × Nat)} {k : Nat} (h : ∀ x ∈ m, x.1 ≠ k) :
    lookupStake m k = none := by
  induction m with
  | nil => rfl
  | cons hd tl ih =>
    obtain ⟨k0, v0⟩ := hd
    have hne : k ≠ k0 := fun he => (h (k0, v0) (List.mem_cons_self _ _)) he.symm
    simp only [lookupStake, if_neg hne]
    exact ih (fun x hx => h x (List.mem_cons_of_mem _ hx))

/-- Lookup succeeding means the key is present. -/
theorem mem_fst_of_lookup {m : List (Nat × Nat)} {k v : Nat}
    (h : lookupStake m k = some v) : k ∈ m.map Prod.fst := by
  induction m with
  | nil => simp [lookupStake] at h
  | cons hd tl ih =>
    obtain ⟨k0, v0⟩ := hd
    by_cases hk : k = k0
    · subst hk; simp
    · simp only [lookupStake, if_neg hk] at h
      simp [ih h]

/-- Effect of addStake on lookup, on a strictly-key-sorted map. -/
theorem lookup_addStake {m : List (Nat × Nat)} (hs : sortedKeys m) (k v k2 : Nat) :
    lookupStake (addStake m k v) k2 =
      if k2 = k then some ((lookupStake m k).getD 0 + v) else lookupStake m k2 := by
  induction m with
  | nil =>
    by_cases hk : k2 = k <;> simp [addStake, lookupStake, hk]
  | cons hd tl ih =>
    obtain ⟨k0, v0⟩ := hd
    rw [sortedKeys, List.pairwise_cons] at hs
    obtain ⟨hhead, htail⟩ := hs
    by_cases h1 : k < k0
    · have hk0 : k ≠ k0 := by omega
      have htlk : lookupStake tl k = none :=
        lookup_none (fun x hx => by have := hhead x hx; omega)
      have hk0s : k0 ≠ k := by omega
      by_cases hk2 : k2 = k
      · simp [addStake, h1, lookupStake, hk2, hk0, htlk]
      · by_cases hk20 : k2 = k0 <;>
          simp [addStake, h1, lookupStake, hk2, hk20, hk0s]
    · by_cases h2 : k = k0
      · subst h2
        by_cases hk2 : k2 = k <;> simp [addStake, h1, lookupStake, hk2]
      · have h2s : k0 ≠ k := fun he => h2 he.symm
        by_cases hk2 : k2 = k
        · subst hk2
          simp [addStake, h1, h2, lookupStake, ih htail]
        · by_cases hk20 : k2 = k0 <;>
            simp [addStake, h1, h2, h2s, lookupStake, hk2, hk20, ih htail]

/-- Extensionality: two strictly-key-sorted maps with equal lookups are
equal. -/
theorem ext_sortedKeys {m1 : List (Nat × Nat)} :
    ∀ {m2 : List (Nat × Nat)}, sortedKeys m1 → sortedKeys m2 →
      (∀ k, lookupStake m1 k = lookupStake m2 k) → m1 = m2 := by
  induction m1 with
  | nil =>
    intro m2 _ _ h
    cases m2 with
    | nil => rfl
    | cons hd tl =>
      obtain ⟨k2, v2⟩ := hd
      have := h k2
      simp [lookupStake] at this
  | cons hd tl ih =>
    intro m2 hs1 hs2 h
    obtain ⟨k1, v1⟩ := hd
    cases m2 with
    | nil =>
      have := h k1
      simp [lookupStake] at this
    | cons hd2 tl2 =>
      obtain ⟨k2, v2⟩ := hd2
      rw [sortedKeys, List.pairwise_cons] at hs1 hs2
      obtain ⟨hh1, ht1⟩ := hs1
      obtain ⟨hh2, ht2⟩ := hs2
      have e1 := h k1
      have e2 := h k2
      simp only [lookupStake, if_pos rfl] at e1 e2
      have hkeq : k1 = k2 := by
        by_contra hne
        have hne2 : k2 ≠ k1 := fun he => hne he.symm
        rw [if_neg hne] at e1
        rw [if_neg hne2] at e2
        have m1 : k1 ∈ tl2.map Prod.fst := mem_fst_of_lookup e1.symm
        have m2 : k2 ∈ tl.map Prod.fst := mem_fst_of_lookup e2
        rcases List.mem_map.mp m1 with ⟨z, hz, hz1⟩
        rcases List.mem_map.mp m2 with ⟨w, hw, hw1⟩
        have := hh2 z hz
        have := hh1 w hw
        omega
      subst hkeq
      rw [if_pos rfl] at e1
      have hveq : v1 = v2 := by injection e1
      subst hveq
      have htl : ∀ k, lookupStake tl k = lookupStake tl2 k := by
        intro k
        by_cases hk : k = k1
        · subst hk
          rw [lookup_none (fun x hx => by have := hh1 x hx; omega),
            lookup_none (fun x hx => by have := hh2 x hx; omega)]
        · have := h k
          simpa [lookupStake, if_neg hk] using this
      rw [ih ht1 ht2 htl]

/-- The aggregation fold preserves the strictly-sorted-keys invariant. -/
theorem sortedKeys_foldl (e : Nat) :
    ∀ (recs : List DelegationRecord) (m : List (Nat × Nat)), sortedKeys m →
      sortedKeys (recs.foldl (aggStep e) m) := by
  intro recs
  induction recs with
  | nil => intro m hm; exact hm
  | cons r rest ih =>
    intro m hm
    rw [List.foldl_cons]
    apply ih
    unfold aggStep
    by_cases h : isActive r e = true
    · rw [if_pos h]; exact sortedKeys_addStake hm
    · rw [if_neg h]; exact hm

/-- The aggregated table has strictly sorted, hence unique, keys. -/
theorem sortedKeys_aggregate (recs : List DelegationRecord) (e : Nat) :
    sortedKeys (aggregate recs e) :=
  sortedKeys_foldl e recs [] List.Pairwise.nil

/-- Lookup after the aggregation fold: the accumulated entry of k grows by
the total stake of the active records delegated to k. -/
theorem lookup_foldl (e k : Nat) :
    ∀ (recs : List DelegationRecord) (m : List (Nat × Nat)), sortedKeys m →
      lookupStake (recs.foldl (aggStep e) m) k =
        (if recs.filter (fun r => isActive r e && decide (r.voter_pubkey = k)) = []
         then lookupStake m k
         else some ((lookupStake m k).getD 0 +
           ((recs.filter (fun r => isActive r e && decide (r.voter_pubkey = k))).map
             DelegationRecord.stake).sum)) := by
  intro recs
  induction recs with
  | nil => intro m _; simp
  | cons r rest ih =>
    intro m hm
    rw [List.foldl_cons]
    by_cases ha : isActive r e = true
    · by_cases hv : r.voter_pubkey = k
      · have hstep : aggStep e m r = addStake m k r.stake := by
          unfold aggStep; rw [if_pos ha, hv]
        rw [hstep]
        have hm2 : sortedKeys (addStake m k r.stake) := sortedKeys_addStake hm
        rw [ih _ hm2]
        have hl : lookupStake (addStake m k r.stake) k =
            some ((lookupStake m k).getD 0 + r.stake) := by
          rw [lookup_addStake hm k r.stake k, if_pos rfl]
        have hfc : (r :: rest).filter
            (fun r => isActive r e && decide (r.voter_pubkey = k)) =
            r :: rest.filter (fun r => isActive r e && decide (r.voter_pubkey = k)) := by
          rw [List.filter_cons_of_pos]
          simp [ha, hv]
        rw [hfc]
        by_cases hre : rest.filter (fun r => isActive r e && decide (r.voter_pubkey = k)) = []
        · rw [if_pos hre, hl, hre]
          simp
        · rw [if_neg hre, hl]
          have : ¬(r :: rest.filter (fun r => isActive r e && decide (r.voter_pubkey = k)) =
              []) := by simp
          rw [if_neg this]
          simp only [List.map_cons, List.sum_cons, Option.getD_some]
          congr 1
          omega
      · have hstep : aggStep e m r = addStake m r.voter_pubkey r.stake := by
          unfold aggStep; rw [if_pos ha]
        rw [hstep]
        have hm2 : sortedKeys (addStake m r.voter_pubkey r.stake) := sortedKeys_addStake hm
        rw [ih _ hm2]
        have hl : lookupStake (addStake m r.voter_pubkey r.stake) k = lookupStake m k := by
          rw [lookup_addStake hm r.voter_pubkey r.stake k, if_neg (fun he => hv he.symm)]
        have hfc : (r :: rest).filter
            (fun r => isActive r e && decide (r.voter_pubkey = k)) =
            rest.filter (fun r => isActive r e && decide (r.voter_pubkey = k)) := by
          simp [List.filter_cons, hv]
        rw [hfc, hl]
    · have hstep : aggStep e m r = m := by
        unfold aggStep; rw [if_neg ha]
      rw [hstep, ih _ hm]
      have hfc : (r :: rest).filter
          (fun r => isActive r e && decide (r.voter_pubkey = k)) =
          rest.filter (fun r => isActive r e && decide (r.voter_pubkey = k)) := by
        simp [List.filter_cons, ha]
      rw [hfc]

/-- Characterization of lookup on the aggregated table. -/
theorem lookup_aggregate (recs : List DelegationRecord) (e k : Nat) :
    lookupStake (aggregate recs e) k =
      (if recs.filter (fun r => isActive r e && decide (r.voter_pubkey = k)) = []
       then none
       else some (((recs.filter
         (fun r => isActive r e && decide (r.voter_pubkey = k))).map
           DelegationRecord.stake).sum)) := by
  unfold aggregate
  rw [lookup_foldl e k recs [] List.Pairwise.nil]
  simp [lookupStake]

/-- Aggregation is independent of the order the records are supplied in. -/
theorem aggregate_perm {recs1 recs2 : List DelegationRecord} (e : Nat)
    (h : recs1.Perm recs2) : aggregate recs1 e = aggregate recs2 e := by
  apply ext_sortedKeys (sortedKeys_aggregate recs1 e) (sortedKeys_aggregate recs2 e)
  intro k
  rw [lookup_aggregate, lookup_aggregate]
  have hf := h.filter (fun r => isActive r e && decide (r.voter_pubkey = k))
  have hsum := (hf.map DelegationRecord.stake).sum_eq
  by_cases h1 : recs1.filter (fun r => isActive r e && decide (r.voter_pubkey = k)) = []
  · have h2 : recs2.filter (fun r => isActive r e && decide (r.voter_pubkey = k)) = [] := by
      rw [h1] at hf
      exact (hf.symm).eq_nil
    rw [if_pos h1, if_pos h2]
  · have h2 : ¬(recs2.filter (fun r => isActive r e && decide (r.voter_pubkey = k)) = []) := by
      intro h2
      rw [h2] at hf
      exact h1 hf.eq_nil
    rw [if_neg h1, if_neg h2, hsum]

/-- addStake grows the total of the stored stake values by exactly v. -/
theorem sum_addStake (m : List (Nat × Nat)) (k v : Nat) :
    ((addStake m k v).map Prod.snd).sum = (m.map Prod.snd).sum + v := by
  induction m with
  | nil => simp [addStake]
  | cons hd tl ih =>
    obtain ⟨k0, v0⟩ := hd
    by_cases h1 : k < k0
    · simp [addStake, h1]
      omega
    · by_cases h2 : k = k0
      · simp [addStake, h1, h2]
        omega
      · simp [addStake, h1, h2, ih]
        omega

/-- The aggregation fold adds exactly the stakes of the active records to
the stored total. -/
theorem sum_foldl (e : Nat) :
    ∀ (recs : List DelegationRecord) (m : List (Nat × Nat)),
      ((recs.foldl (aggStep e) m).map Prod.snd).sum =
        (m.map Prod.snd).sum +
          ((recs.filter (fun r => isActive r e)).map DelegationRecord.stake).sum := by
  intro recs
  induction recs with
  | nil => intro m; simp
  | cons r rest ih =>
    intro m
    rw [List.foldl_cons]
    by_cases ha : isActive r e = true
    · have hstep : aggStep e m r = addStake m r.voter_pubkey r.stake := by
        unfold aggStep; rw [if_pos ha]
      have hfc : (r :: rest).filter (fun r => isActive r e) =
          r :: rest.filter (fun r => isActive r e) := by
        simp [List.filter_cons, ha]
      rw [hstep, ih, sum_addStake, hfc]
      simp only [List.map_cons, List.sum_cons]
      omega
    · have hstep : aggStep e m r = m := by
        unfold aggStep; rw [if_neg ha]
      have hfc : (r :: rest).filter (fun r => isActive r e) =
          rest.filter (fun r => isActive r e) := by
        simp [List.filter_cons, ha]
      rw [hstep, ih, hfc]

/-- Key membership after the aggregation fold. -/
theorem mem_fst_foldl (e k : Nat) :
    ∀ (recs : List DelegationRecord) (m : List (Nat × Nat)),
      (k ∈ (recs.foldl (aggStep e) m).map Prod.fst ↔
        k ∈ m.map Prod.fst ∨ ∃ r ∈ recs, isActive r e = true ∧ r.voter_pubkey = k) := by
  intro recs
  induction recs with
  | nil => intro m; simp
  | cons r rest ih =>
    intro m
    rw [List.foldl_cons]
    by_cases ha : isActive r e = true
    · have hstep : aggStep e m r = addStake m r.voter_pubkey r.stake := by
        unfold aggStep; rw [if_pos ha]
      rw [hstep, ih]
      rw [mem_fst_addStake]
      constructor
      · rintro ((h | h) | h)
        · exact Or.inr ⟨r, List.mem_cons_self _ _, ha, h.symm⟩
        · exact Or.inl h
        · rcases h with ⟨r2, hr2, h2⟩
          exact Or.inr ⟨r2, List.mem_cons_of_mem _ hr2, h2⟩
      · rintro (h | h)
        · exact Or.inl (Or.inr h)
        · rcases h with ⟨r2, hr2, h2, h3⟩
          rcases List.mem_cons.mp hr2 with he | he
          · subst he
            exact Or.inl (Or.inl h3.symm)
          · exact Or.inr ⟨r2, he, h2, h3⟩
    · have hstep : aggStep e m r = m := by
        unfold aggStep; rw [if_neg ha]
      rw [hstep, ih]
      constructor
      · rintro (h | h)
        · exact Or.inl h
        · rcases h with ⟨r2, hr2, h2⟩
          exact Or.inr ⟨r2, List.mem_cons_of_mem _ hr2, h2⟩
      · rintro (h | h)
        · exact Or.inl h
        · rcases h with ⟨r2, hr2, h2, h3⟩
          rcases List.mem_cons.mp hr2 with he | he
          · subst he
            exact absurd h2 ha
          · exact Or.inr ⟨r2, he, h2, h3⟩

/-- dedupAdj leaves a duplicate-free list unchanged. -/
theorem dedupAdj_eq_self : ∀ {l : List (Nat × Nat)}, l.Nodup → dedupAdj l = l := by
  intro l
  induction l with
  | nil => intro _; rfl
  | cons a rest ih =>
    intro h
    cases rest with
    | nil => rfl
    | cons b t =>
      have hmem := (List.nodup_cons.mp h).1
      have hab : a ≠ b := fun he => hmem (he ▸ List.mem_cons_self b t)
      have hd : dedupAdj (a :: b :: t) = a :: dedupAdj (b :: t) := by
        simp [dedupAdj, hab]
      rw [hd, ih (List.nodup_cons.mp h).2]

/-- dedupAdj yields a sublist of its input. -/
theorem dedupAdj_sublist : ∀ (l : List (Nat × Nat)), List.Sublist (dedupAdj l) l := by
  intro l
  induction l with
  | nil => simp [dedupAdj]
  | cons a rest ih =>
    cases rest with
    | nil => simp [dedupAdj]
    | cons b t =>
      by_cases hab : a = b
      · have hd : dedupAdj (a :: b :: t) = dedupAdj (b :: t) := by simp [dedupAdj, hab]
        rw [hd]
        exact ih.cons a
      · have hd : dedupAdj (a :: b :: t) = a :: dedupAdj (b :: t) := by simp [dedupAdj, hab]
        rw [hd]
        exact ih.cons₂ a

/-- The canonical sequence is sorted by the comparator of sort_stakes. -/
theorem sorted_sortStakes (l : List (Nat × Nat)) :
    List.Sorted stakeBefore (sortStakes l) :=
  (List.sorted_insertionSort stakeBefore l).sublist (dedupAdj_sublist _)

/-- Sorting with the antisymmetric total order stakeBefore is invariant under
permutation of the input. -/
theorem insertionSort_eq_of_perm {l1 l2 : List (Nat × Nat)} (h : l1.Perm l2) :
    List.insertionSort stakeBefore l1 = List.insertionSort stakeBefore l2 :=
  List.eq_of_perm_of_sorted
    ((List.perm_insertionSort stakeBefore l1).trans
      (h.trans (List.perm_insertionSort stakeBefore l2).symm))
    (List.sorted_insertionSort stakeBefore l1)
    (List.sorted_insertionSort stakeBefore l2)

/-- sort_stakes is invariant under permutation of the input. -/
theorem sortStakes_eq_of_perm {l1 l2 : List (Nat × Nat)} (h : l1.Perm l2) :
    sortStakes l1 = sortStakes l2 := by
  unfold sortStakes
  rw [insertionSort_eq_of_perm h]

/-- Strictly sorted keys imply a duplicate-free entry list. -/
theorem nodup_of_sortedKeys {m : List (Nat × Nat)} (h : sortedKeys m) : m.Nodup :=
  h.imp (fun hlt he => by subst he; omega)

/-- Strictly sorted keys imply a duplicate-free key list. -/
theorem nodup_fst_of_sortedKeys {m : List (Nat × Nat)} (h : sortedKeys m) :
    (m.map Prod.fst).Nodup := by
  rw [List.Nodup, List.pairwise_map]
  exact h.imp (fun hlt => by omega)

/-- On a duplicate-free input the dedup step of sort_stakes removes nothing,
and sort_stakes is a permutation. -/
theorem sortStakes_eq_insertionSort_of_nodup {l : List (Nat × Nat)} (h : l.Nodup) :
    sortStakes l = List.insertionSort stakeBefore l := by
  unfold sortStakes
  exact dedupAdj_eq_self (((List.perm_insertionSort stakeBefore l).nodup_iff).2 h)

/-- sort_stakes permutes a duplicate-free input. -/
theorem sortStakes_perm_of_nodup {l : List (Nat × Nat)} (h : l.Nodup) :
    (sortStakes l).Perm l := by
  rw [sortStakes_eq_insertionSort_of_nodup h]
  exact List.perm_insertionSort stakeBefore l

/-- Little-endian byte extraction decodes back to the value modulo 256^n. -/
theorem decodeLE_bytes : ∀ (n e : Nat),
    decodeLE ((List.range n).map (fun i => e / 256 ^ i % 256)) = e % 256 ^ n := by
  intro n
  induction n with
  | zero => intro e; simp [decodeLE, Nat.mod_one]
  | succ n ih =>
    intro e
    rw [List.range_succ_eq_map]
    simp only [List.map_cons, List.map_map]
    have hcomp : ((fun i => e / 256 ^ i % 256) ∘ (· + 1)) =
        fun i => (e / 256) / 256 ^ i % 256 := by
      funext i
      simp only [Function.comp_apply]
      rw [pow_succ, mul_comm, ← Nat.div_div_eq_div_mul]
    rw [hcomp, decodeLE, ih (e / 256)]
    have h1 : (256 : Nat) ^ (n + 1) = 256 * 256 ^ n := by ring
    rw [h1, Nat.mod_mul]
    simp [pow_zero, Nat.div_one]

/-- The seed buffer has exactly 32 bytes. -/
theorem length_scheduleSeed (e : Nat) : (scheduleSeed e).length = 32 := by
  simp [scheduleSeed]

/-- Byte i of the seed, for i below 8, is byte i of the little-endian epoch. -/
theorem getD_scheduleSeed_lt (e i : Nat) (h : i < 8) :
    (scheduleSeed e).getD i 0 = e / 256 ^ i % 256 := by
  unfold scheduleSeed
  have hlen : i < ((List.range 8).map (fun i => e / 256 ^ i % 256)).length := by
    simp [h]
  rw [List.getD_eq_getElem?_getD, List.getElem?_append_left hlen]
  simp [List.getElem?_range h]

/-- Bytes 8 through 31 of the seed are zero. -/
theorem getD_scheduleSeed_ge (e i : Nat) (h8 : 8 ≤ i) (h32 : i < 32) :
    (scheduleSeed e).getD i 0 = 0 := by
  unfold scheduleSeed
  have hlen : ((List.range 8).map (fun i => e / 256 ^ i % 256)).length ≤ i := by
    simp [h8]
  rw [List.getD_eq_getElem?_getD, List.getElem?_append_right hlen,
    List.getElem?_replicate]
  have hlt : i - ((List.range 8).map (fun i => e / 256 ^ i % 256)).length < 24 := by
    simp
    omega
  rw [if_pos hlt]
  rfl

/-- The first 8 seed bytes decode to the epoch modulo 2^64. -/
theorem decodeLE_take_scheduleSeed (e : Nat) :
    decodeLE ((scheduleSeed e).take 8) = e % 2 ^ 64 := by
  unfold scheduleSeed
  rw [List.take_left' (by simp), decodeLE_bytes]
  norm_num

/-- The expansion step yields groups-times-rep slots. -/
theorem length_expandGroups : ∀ (gs : List Nat) (rep : Nat),
    (expandGroups gs rep).length = gs.length * rep := by
  intro gs rep
  induction gs with
  | nil => simp [expandGroups]
  | cons g gs ih =>
    simp only [expandGroups, List.length_append, List.length_replicate, ih,
      List.length_cons]
    rw [Nat.succ_mul]
    omega

/-- Slot g * rep + j of the expansion, for j below rep, is group leader g. -/
theorem getD_expandGroups (rep : Nat) : ∀ (gs : List Nat) (g j : Nat), j < rep →
    g < gs.length → (expandGroups gs rep).getD (g * rep + j) 0 = gs.getD g 0 := by
  intro gs
  induction gs with
  | nil => intro g j hj hg; simp at hg
  | cons a gs ih =>
    intro g j hj hg
    cases g with
    | zero =>
      simp only [expandGroups, Nat.zero_mul, Nat.zero_add]
      have hjlen : j < (List.replicate rep a).length := by simp [hj]
      rw [List.getD_eq_getElem?_getD, List.getElem?_append_left hjlen]
      simp [List.getElem?_replicate, hj]
    | succ g2 =>
      have harith : (g2 + 1) * rep + j = (List.replicate rep a).length + (g2 * rep + j) := by
        simp only [List.length_replicate, Nat.succ_mul]
        omega
      simp only [expandGroups]
      rw [harith, List.getD_eq_getElem?_getD,
        List.getElem?_append_right (by simp : (List.replicate rep a).length ≤
          (List.replicate rep a).length + (g2 * rep + j))]
      simp only [List.length_replicate, Nat.add_sub_cancel_left]
      rw [← List.getD_eq_getElem?_getD]
      rw [ih g2 j hj (by simpa using hg)]
      rw [List.getD_cons_succ]

/-- The group-leader sequence has exactly count entries. -/
theorem length_slotLeaderGroups (perm : List Nat) (c : Nat) :
    (slotLeaderGroups perm c).length = c := by
  simp [slotLeaderGroups]

/-- Group leader g is the permutation entry at g modulo the permutation
length: the permutation is cycled, wrapping to its start when exhausted. -/
theorem getD_slotLeaderGroups (perm : List Nat) (c g : Nat) (h : g < c) :
    (slotLeaderGroups perm c).getD g 0 = perm.getD (g % perm.length) 0 := by
  unfold slotLeaderGroups
  rw [List.getD_eq_getElem?_getD]
  simp [List.getElem?_range h]

/-- When the account loop succeeds, the resulting table is the fold of
aggStep over exactly the Stake-variant delegations, in account order. -/
theorem aggregateAccounts_ok (ce : Nat) :
    ∀ (accs : List (Nat × Account)) (m m2 : List (Nat × Nat)),
      aggregateAccounts accs ce m = .ok m2 →
      m2 = (accountDelegations accs).foldl (aggStep ce) m := by
  intro accs
  induction accs with
  | nil =>
    intro m m2 h
    simp only [aggregateAccounts] at h
    injection h with h
    simp [accountDelegations, h]
  | cons hd rest ih =>
    intro m m2 h
    obtain ⟨pk0, a0⟩ := hd
    simp only [aggregateAccounts] at h
    by_cases h0 : a0.dataLen = 0
    · have hp : processAccount ce m (pk0, a0) = .ok m := by
        simp [processAccount, h0]
      rw [hp] at h
      have hd2 : accountDelegations ((pk0, a0) :: rest) = accountDelegations rest := by
        simp [accountDelegations, h0]
      rw [hd2]
      exact ih m m2 h
    · cases hdec : a0.decoded with
      | failed =>
        have hp : processAccount ce m (pk0, a0) = .error (.MalformedRecord pk0) := by
          simp [processAccount, h0, hdec]
        rw [hp] at h
        simp at h
      | ok s =>
        cases s with
        | Stake meta0 d0 =>
          have hp : processAccount ce m (pk0, a0) = .ok (aggStep ce m d0) := by
            simp [processAccount, h0, hdec, aggStep]
          rw [hp] at h
          have hd2 : accountDelegations ((pk0, a0) :: rest) =
              d0 :: accountDelegations rest := by
            simp [accountDelegations, h0, hdec]
          rw [hd2, List.foldl_cons]
          exact ih _ m2 h
        | Uninitialized =>
          have hp : processAccount ce m (pk0, a0) = .ok m := by
            simp [processAccount, h0, hdec]
          rw [hp] at h
          have hd2 : accountDelegations ((pk0, a0) :: rest) = accountDelegations rest := by
            simp [accountDelegations, h0, hdec]
          rw [hd2]
          exact ih m m2 h
        | Initialized meta0 =>
          have hp : processAccount ce m (pk0, a0) = .ok m := by
            simp [processAccount, h0, hdec]
          rw [hp] at h
          have hd2 : accountDelegations ((pk0, a0) :: rest) = accountDelegations rest := by
            simp [accountDelegations, h0, hdec]
          rw [hd2]
          exact ih m m2 h
        | RewardsPool =>
          have hp : processAccount ce m (pk0, a0) = .ok m := by
            simp [processAccount, h0, hdec]
          rw [hp] at h
          have hd2 : accountDelegations ((pk0, a0) :: rest) = accountDelegations rest := by
            simp [accountDelegations, h0, hdec]
          rw [hd2]
          exact ih m m2 h

/-- A delegation is considered by the loop iff some fetched account with
non-empty data decodes to the Stake variant carrying it. -/
theorem mem_accountDelegations (d : DelegationRecord) :
    ∀ (accs : List (Nat × Account)), d ∈ accountDelegations accs ↔
      ∃ pk a meta, (pk, a) ∈ accs ∧ a.dataLen ≠ 0 ∧
        a.decoded = DecodeResult.ok (StakeState.Stake meta d) := by
  intro accs
  induction accs with
  | nil => simp [accountDelegations]
  | cons hd rest ih =>
    obtain ⟨pk0, a0⟩ := hd
    by_cases h0 : a0.dataLen = 0
    · have hd2 : accountDelegations ((pk0, a0) :: rest) = accountDelegations rest := by
        simp [accountDelegations, h0]
      rw [hd2, ih]
      constructor
      · rintro ⟨pk, a, meta1, hmem, hne, hdec⟩
        exact ⟨pk, a, meta1, List.mem_cons_of_mem _ hmem, hne, hdec⟩
      · rintro ⟨pk, a, meta1, hmem, hne, hdec⟩
        rcases List.mem_cons.mp hmem with he | he
        · rw [Prod.mk.injEq] at he
          obtain ⟨he1, he2⟩ := he
          subst he2
          exact absurd h0 hne
        · exact ⟨pk, a, meta1, he, hne, hdec⟩
    · cases hdec0 : a0.decoded with
      | failed =>
        have hd2 : accountDelegations ((pk0, a0) :: rest) = accountDelegations rest := by
          simp [accountDelegations, h0, hdec0]
        rw [hd2, ih]
        constructor
        · rintro ⟨pk, a, meta1, hmem, hne, hdec⟩
          exact ⟨pk, a, meta1, List.mem_cons_of_mem _ hmem, hne, hdec⟩
        · rintro ⟨pk, a, meta1, hmem, hne, hdec⟩
          rcases List.mem_cons.mp hmem with he | he
          · rw [Prod.mk.injEq] at he
            obtain ⟨he1, he2⟩ := he
            subst he2
            rw [hdec0] at hdec
            exact absurd hdec (by simp)
          · exact ⟨pk, a, meta1, he, hne, hdec⟩
      | ok s =>
        cases s with
        | Stake meta0 d0 =>
          have hd2 : accountDelegations ((pk0, a0) :: rest) =
              d0 :: accountDelegations rest := by
            simp [accountDelegations, h0, hdec0]
          rw [hd2]
          constructor
          · intro hmem
            rcases List.mem_cons.mp hmem with he | he
            · subst he
              exact ⟨pk0, a0, meta0, List.mem_cons_self _ _, h0, hdec0⟩
            · rcases ih.mp he with ⟨pk, a, meta1, hmem2, hne, hdec⟩
              exact ⟨pk, a, meta1, List.mem_cons_of_mem _ hmem2, hne, hdec⟩
          · rintro ⟨pk, a, meta1, hmem, hne, hdec⟩
            rcases List.mem_cons.mp hmem with he | he
            · rw [Prod.mk.injEq] at he
              obtain ⟨he1, he2⟩ := he
              subst he2
              rw [hdec0] at hdec
              injection hdec with hs
              injection hs with hm hd3
              exact List.mem_cons.mpr (Or.inl hd3.symm)
            · exact List.mem_cons.mpr
                (Or.inr (ih.mpr ⟨pk, a, meta1, he, hne, hdec⟩))
        | Uninitialized =>
          have hd2 : accountDelegations ((pk0, a0) :: rest) = accountDelegations rest := by
            simp [accountDelegations, h0, hdec0]
          rw [hd2, ih]
          constructor
          · rintro ⟨pk, a, meta1, hmem, hne, hdec⟩
            exact ⟨pk, a, meta1, List.mem_cons_of_mem _ hmem, hne, hdec⟩
          · rintro ⟨pk, a, meta1, hmem, hne, hdec⟩
            rcases List.mem_cons.mp hmem with he | he
            · rw [Prod.mk.injEq] at he
              obtain ⟨he1, he2⟩ := he
              subst he2
              rw [hdec0] at hdec
              exact absurd hdec (by simp)
            · exact ⟨pk, a, meta1, he, hne, hdec⟩
        | Initialized meta2 =>
          have hd2 : accountDelegations ((pk0, a0) :: rest) = accountDelegations rest := by
            simp [accountDelegations, h0, hdec0]
          rw [hd2, ih]
          constructor
          · rintro ⟨pk, a, meta1, hmem, hne, hdec⟩
            exact ⟨pk, a, meta1, List.mem_cons_of_mem _ hmem, hne, hdec⟩
          · rintro ⟨pk, a, meta1, hmem, hne, hdec⟩
            rcases List.mem_cons.mp hmem with he | he
            · rw [Prod.mk.injEq] at he
              obtain ⟨he1, he2⟩ := he
              subst he2
              rw [hdec0] at hdec
              exact absurd hdec (by simp)
            · exact ⟨pk, a, meta1, he, hne, hdec⟩
        | RewardsPool =>
          have hd2 : accountDelegations ((pk0, a0) :: rest) = accountDelegations rest := by
            simp [accountDelegations, h0, hdec0]
          rw [hd2, ih]
          constructor
          · rintro ⟨pk, a, meta1, hmem, hne, hdec⟩
            exact ⟨pk, a, meta1, List.mem_cons_of_mem _ hmem, hne, hdec⟩
          · rintro ⟨pk, a, meta1, hmem, hne, hdec⟩
            rcases List.mem_cons.mp hmem with he | he
            · rw [Prod.mk.injEq] at he
              obtain ⟨he1, he2⟩ := he
              subst he2
              rw [hdec0] at hdec
              exact absurd hdec (by simp)
            · exact ⟨pk, a, meta1, he, hne, hdec⟩

/-- C3: for every target epoch of at least 1, the aggregator excludes a record
with activation_epoch >= target_epoch (hence one equal to it, and the
never-activated u64::MAX), includes a record with activation_epoch =
target_epoch - 1 and deactivation_epoch = target_epoch, and excludes any
record with deactivation_epoch = target_epoch - 1. -/
theorem stake_filtering_boundaries (e a a2 d s v : Nat)
    (he : 1 ≤ e) (ha : e ≤ a) (hmax : e ≤ U64_MAX) :
    isActive ⟨v, s, a, d⟩ e = false ∧
    aggregate [⟨v, s, a, d⟩] e = [] ∧
    isActive ⟨v, s, U64_MAX, d⟩ e = false ∧
    isActive ⟨v, s, e - 1, e⟩ e = true ∧
    aggregate [⟨v, s, e - 1, e⟩] e = [(v, s)] ∧
    isActive ⟨v, s, a2, e - 1⟩ e = false ∧
    aggregate [⟨v, s, a2, e - 1⟩] e = [] := by
  have h1 : isActive ⟨v, s, a, d⟩ e = false := by
    simp [isActive]
    omega
  have h2 : isActive ⟨v, s, U64_MAX, d⟩ e = false := by
    simp [isActive]
    omega
  have h3 : isActive ⟨v, s, e - 1, e⟩ e = true := by
    simp [isActive]
    omega
  have h4 : isActive ⟨v, s, a2, e - 1⟩ e = false := by
    simp [isActive]
    omega
  refine ⟨h1, ?_, h2, h3, ?_, h4, ?_⟩
  · simp [aggregate, aggStep, h1]
  · simp [aggregate, aggStep, h3, addStake]
  · simp [aggregate, aggStep, h4]

/-- Witness for C3 at epoch 5, activation 9, a second activation 2, stake
100, validator 1. -/
theorem stake_filtering_boundaries_witness :
    (1 ≤ 5 ∧ 5 ≤ 9 ∧ 5 ≤ U64_MAX) ∧
    (isActive ⟨1, 100, 9, 7⟩ 5 = false ∧
     aggregate [⟨1, 100, 9, 7⟩] 5 = [] ∧
     isActive ⟨1, 100, U64_MAX, 7⟩ 5 = false ∧
     isActive ⟨1, 100, 5 - 1, 5⟩ 5 = true ∧
     aggregate [⟨1, 100, 5 - 1, 5⟩] 5 = [(1, 100)] ∧
     isActive ⟨1, 100, 2, 5 - 1⟩ 5 = false ∧
     aggregate [⟨1, 100, 2, 5 - 1⟩] 5 = []) :=
  ⟨⟨by decide, by decide, by decide⟩,
   stake_filtering_boundaries 5 9 2 7 100 1 (by decide) (by decide) (by decide)⟩

/-- C4: the canonical sequence fed to the weighted sampler is sorted by the
deterministic total order (descending stake, ties descending identity), the
aggregated mapping's keys are unique, the dedup step removes nothing, and the
canonical sequence is exactly a permutation of the mapping's entries. -/
theorem canonical_sort_correct (recs : List DelegationRecord) (e : Nat) :
    ((aggregate recs e).map Prod.fst).Nodup ∧
    sortStakes (aggregate recs e) =
      List.insertionSort stakeBefore (aggregate recs e) ∧
    (sortStakes (aggregate recs e)).Perm (aggregate recs e) ∧
    List.Sorted stakeBefore (sortStakes (aggregate recs e)) := by
  have hs := sortedKeys_aggregate recs e
  have hnd := nodup_of_sortedKeys hs
  exact ⟨nodup_fst_of_sortedKeys hs,
    sortStakes_eq_insertionSort_of_nodup hnd,
    sortStakes_perm_of_nodup hnd,
    sorted_sortStakes _⟩

/-- C5: the seed is a 32-byte buffer whose first 8 bytes are the epoch in
fixed-width little-endian (decoding back to the epoch for any u64 value) and
whose remaining 24 bytes are zero; it depends on the epoch alone. -/
theorem schedule_seed_layout (e : Nat) :
    (scheduleSeed e).length = 32 ∧
    (∀ i, i < 8 → (scheduleSeed e).getD i 0 = e / 256 ^ i % 256) ∧
    (∀ i, 8 ≤ i → i < 32 → (scheduleSeed e).getD i 0 = 0) ∧
    (e < 2 ^ 64 → decodeLE ((scheduleSeed e).take 8) = e) :=
  ⟨length_scheduleSeed e,
   fun i hi => getD_scheduleSeed_lt e i hi,
   fun i h8 h32 => getD_scheduleSeed_ge e i h8 h32,
   fun he => by rw [decodeLE_take_scheduleSeed, Nat.mod_eq_of_lt he]⟩

/-- Witness for C5 at epoch 300. -/
theorem schedule_seed_layout_witness :
    (scheduleSeed 300).length = 32 ∧
    (scheduleSeed 300).getD 1 0 = 300 / 256 ^ 1 % 256 ∧
    (scheduleSeed 300).getD 9 0 = 0 ∧
    decodeLE ((scheduleSeed 300).take 8) = 300 :=
  ⟨(schedule_seed_layout 300).1,
   (schedule_seed_layout 300).2.1 1 (by decide),
   (schedule_seed_layout 300).2.2.1 9 (by decide) (by decide),
   (schedule_seed_layout 300).2.2.2 (by decide)⟩

/-- C6: with an empty aggregated stake table, schedule generation fails with
EmptyStakeSet and never silently returns a schedule. -/
theorem empty_stake_set_fails (e : Nat) (m : List (Nat × Nat)) (hm : m = []) :
    leaderSchedule e m = .error .EmptyStakeSet ∧
    ∀ ls, leaderSchedule e m ≠ .ok ls := by
  subst hm
  refine ⟨rfl, ?_⟩
  intro ls h
  simp [leaderSchedule] at h

/-- Witness for C6 at epoch 7. -/
theorem empty_stake_set_fails_witness :
    (([] : List (Nat × Nat)) = []) ∧
    (leaderSchedule 7 [] = .error .EmptyStakeSet ∧
     ∀ ls, leaderSchedule 7 ([] : List (Nat × Nat)) ≠ .ok ls) :=
  ⟨rfl, empty_stake_set_fails 7 [] rfl⟩

/-- C8: conservation - the values of the aggregated table sum to the total
stake over the active records, and two active records of 100 and 250 to the
same validator aggregate to 350. -/
theorem stake_conservation (recs : List DelegationRecord) (e : Nat) :
    ((aggregate recs e).map Prod.snd).sum =
      ((recs.filter (fun r => isActive r e)).map DelegationRecord.stake).sum ∧
    aggregate [⟨7, 100, 1, 9⟩, ⟨7, 250, 2, 9⟩] 5 = [(7, 350)] := by
  constructor
  · unfold aggregate
    rw [sum_foldl]
    simp
  · decide

/-- C9 counterexample: an active record with stake_amount 0 does synthesize a
zero-valued entry: validator 7 has zero surviving active stake yet appears in
the aggregated table. -/
theorem zero_stake_entry_counterexample :
    isActive ⟨7, 0, 1, 9⟩ 5 = true ∧
    aggregate [⟨7, 0, 1, 9⟩] 5 = [(7, 0)] ∧
    lookupStake (aggregate [⟨7, 0, 1, 9⟩] 5) 7 = some 0 := by
  decide

/-- C9 amended: a validator identity appears in the aggregated table iff at
least one record delegating to it is active for the target epoch, regardless
of stake amount; an active record with stake_amount 0 creates a zero-valued
entry. -/
theorem aggregate_membership (recs : List DelegationRecord) (e k : Nat) :
    k ∈ (aggregate recs e).map Prod.fst ↔
      ∃ r ∈ recs, isActive r e = true ∧ r.voter_pubkey = k := by
  unfold aggregate
  rw [mem_fst_foldl]
  simp

/-- C10: a zero-length account, and an account decoding to a non-Stake
variant, contribute nothing to the table and raise no error. -/
theorem non_stake_accounts_ignored (ce : Nat) (m : List (Nat × Nat)) (pk : Nat)
    (acct : Account) (rest : List (Nat × Account))
    (h : acct.dataLen = 0 ∨ ∃ s, acct.decoded = DecodeResult.ok s ∧
      s.isStakeVariant = false) :
    processAccount ce m (pk, acct) = .ok m ∧
    aggregateAccounts ((pk, acct) :: rest) ce m = aggregateAccounts rest ce m := by
  have hp : processAccount ce m (pk, acct) = .ok m := by
    rcases h with h0 | ⟨s, hdec, hns⟩
    · simp [processAccount, h0]
    · by_cases h0 : acct.dataLen = 0
      · simp [processAccount, h0]
      · cases s with
        | Stake meta0 d0 => simp [StakeState.isStakeVariant] at hns
        | Uninitialized => simp [processAccount, h0, hdec]
        | Initialized meta0 => simp [processAccount, h0, hdec]
        | RewardsPool => simp [processAccount, h0, hdec]
  refine ⟨hp, ?_⟩
  simp only [aggregateAccounts, hp]

/-- Witness for C10 on a RewardsPool account. -/
theorem non_stake_accounts_ignored_witness :
    ((⟨5, .ok .RewardsPool⟩ : Account).dataLen = 0 ∨
      ∃ s, (⟨5, .ok .RewardsPool⟩ : Account).decoded = DecodeResult.ok s ∧
        s.isStakeVariant = false) ∧
    (processAccount 3 [] (1, ⟨5, .ok .RewardsPool⟩) = .ok [] ∧
      aggregateAccounts [(1, ⟨5, .ok .RewardsPool⟩)] 3 [] =
        aggregateAccounts [] 3 []) :=
  ⟨Or.inr ⟨.RewardsPool, rfl, rfl⟩,
   non_stake_accounts_ignored 3 [] 1 ⟨5, .ok .RewardsPool⟩ []
     (Or.inr ⟨.RewardsPool, rfl, rfl⟩)⟩

/-- C1: determinism and iteration-order independence - permuting the input
records leaves the aggregated table unchanged, and any two iteration orders
of that (unordered) table yield the identical leader schedule; the result is
a pure function of the record multiset and the epochs alone. -/
theorem determinism_order_independence (e se : Nat)
    (r1 r2 : List DelegationRecord) (l1 l2 : List (Nat × Nat))
    (hr : r1.Perm r2) (h1 : l1.Perm (aggregate r1 e))
    (h2 : l2.Perm (aggregate r2 e)) :
    aggregate r1 e = aggregate r2 e ∧
    leaderSchedule se l1 = leaderSchedule se l2 := by
  have hagg : aggregate r1 e = aggregate r2 e := aggregate_perm e hr
  refine ⟨hagg, ?_⟩
  have h2b : l2.Perm (aggregate r1 e) := by rw [hagg]; exact h2
  have h12 : l1.Perm l2 := h1.trans h2b.symm
  have hempty : l1 = [] ↔ l2 = [] := by
    constructor
    · intro h0; rw [h0] at h12; exact (h12.symm).eq_nil
    · intro h0; rw [h0] at h12; exact h12.eq_nil
  unfold leaderSchedule
  by_cases h0 : l1 = []
  · rw [if_pos h0, if_pos (hempty.mp h0)]
  · rw [if_neg h0, if_neg (fun hh => h0 (hempty.mpr hh))]
    rw [sortStakes_eq_of_perm h12]

/-- Witness for C1 on two records supplied in both orders and two iteration
orders of the resulting table. -/
theorem determinism_order_independence_witness :
    (([⟨3, 5, 0, 9⟩, ⟨7, 2, 0, 9⟩] : List DelegationRecord).Perm
      [⟨7, 2, 0, 9⟩, ⟨3, 5, 0, 9⟩] ∧
     ([((7 : Nat), (2 : Nat)), (3, 5)] : List (Nat × Nat)).Perm
      (aggregate [⟨3, 5, 0, 9⟩, ⟨7, 2, 0, 9⟩] 5) ∧
     ([((3 : Nat), (5 : Nat)), (7, 2)] : List (Nat × Nat)).Perm
      (aggregate [⟨7, 2, 0, 9⟩, ⟨3, 5, 0, 9⟩] 5)) ∧
    (aggregate [⟨3, 5, 0, 9⟩, ⟨7, 2, 0, 9⟩] 5 =
      aggregate [⟨7, 2, 0, 9⟩, ⟨3, 5, 0, 9⟩] 5 ∧
     leaderSchedule 6 [(7, 2), (3, 5)] = leaderSchedule 6 [(3, 5), (7, 2)]) :=
  ⟨⟨by decide, by decide, by decide⟩,
   determinism_order_independence 5 6
     [⟨3, 5, 0, 9⟩, ⟨7, 2, 0, 9⟩] [⟨7, 2, 0, 9⟩, ⟨3, 5, 0, 9⟩]
     [(7, 2), (3, 5)] [(3, 5), (7, 2)]
     (by decide) (by decide) (by decide)⟩

/-- C2: for every non-empty aggregated stake table the schedule has exactly
SLOTS_IN_EPOCH entries, every aligned run of NUM_CONSECUTIVE_LEADER_SLOTS
consecutive entries holds one identity, and the group leaders are obtained
by cycling through the weighted permutation, wrapping to its start, until
SLOTS_IN_EPOCH / NUM_CONSECUTIVE_LEADER_SLOTS leaders are produced. -/
theorem slot_count_and_groups (e : Nat) (m : List (Nat × Nat)) (hm : m ≠ []) :
    ∃ ls, leaderSchedule e m = .ok ls ∧
      ls.length = SLOTS_IN_EPOCH ∧
      (∀ g j, j < NUM_CONSECUTIVE_LEADER_SLOTS →
        g * NUM_CONSECUTIVE_LEADER_SLOTS + j < SLOTS_IN_EPOCH →
        ls.getD (g * NUM_CONSECUTIVE_LEADER_SLOTS + j) 0 =
          ls.getD (g * NUM_CONSECUTIVE_LEADER_SLOTS) 0) ∧
      (∀ g, g < SLOTS_IN_EPOCH / NUM_CONSECUTIVE_LEADER_SLOTS →
        ls.getD (g * NUM_CONSECUTIVE_LEADER_SLOTS) 0 =
          (weightedShuffle (scheduleSeed e) (sortStakes m)).getD
            (g % (weightedShuffle (scheduleSeed e) (sortStakes m)).length) 0) := by
  refine ⟨expandGroups
      (slotLeaderGroups (weightedShuffle (scheduleSeed e) (sortStakes m))
        (SLOTS_IN_EPOCH / NUM_CONSECUTIVE_LEADER_SLOTS))
      NUM_CONSECUTIVE_LEADER_SLOTS, ?_, ?_, ?_, ?_⟩
  · simp only [leaderSchedule, if_neg hm]
  · rw [length_expandGroups, length_slotLeaderGroups]
    decide
  · intro g j hj hlt
    have hg : g < (slotLeaderGroups
        (weightedShuffle (scheduleSeed e) (sortStakes m))
        (SLOTS_IN_EPOCH / NUM_CONSECUTIVE_LEADER_SLOTS)).length := by
      rw [length_slotLeaderGroups]
      simp only [SLOTS_IN_EPOCH, NUM_CONSECUTIVE_LEADER_SLOTS] at hlt hj ⊢
      omega
    have e1 := getD_expandGroups NUM_CONSECUTIVE_LEADER_SLOTS
      (slotLeaderGroups (weightedShuffle (scheduleSeed e) (sortStakes m))
        (SLOTS_IN_EPOCH / NUM_CONSECUTIVE_LEADER_SLOTS)) g j hj hg
    have e2 := getD_expandGroups NUM_CONSECUTIVE_LEADER_SLOTS
      (slotLeaderGroups (weightedShuffle (scheduleSeed e) (sortStakes m))
        (SLOTS_IN_EPOCH / NUM_CONSECUTIVE_LEADER_SLOTS)) g 0 (by decide) hg
    rw [Nat.add_zero] at e2
    rw [e1, e2]
  · intro g hg
    have hg2 : g < (slotLeaderGroups
        (weightedShuffle (scheduleSeed e) (sortStakes m))
        (SLOTS_IN_EPOCH / NUM_CONSECUTIVE_LEADER_SLOTS)).length := by
      rw [length_slotLeaderGroups]
      exact hg
    have e2 := getD_expandGroups NUM_CONSECUTIVE_LEADER_SLOTS
      (slotLeaderGroups (weightedShuffle (scheduleSeed e) (sortStakes m))
        (SLOTS_IN_EPOCH / NUM_CONSECUTIVE_LEADER_SLOTS)) g 0 (by decide) hg2
    rw [Nat.add_zero] at e2
    rw [e2, getD_slotLeaderGroups
      (weightedShuffle (scheduleSeed e) (sortStakes m)) _ g hg]

/-- Witness for C2 on the one-validator table [(1, 1)] at epoch 0. -/
theorem slot_count_and_groups_witness :
    (([((1 : Nat), (1 : Nat))] : List (Nat × Nat)) ≠ []) ∧
    (∃ ls, leaderSchedule 0 [(1, 1)] = .ok ls ∧
      ls.length = SLOTS_IN_EPOCH ∧
      (∀ g j, j < NUM_CONSECUTIVE_LEADER_SLOTS →
        g * NUM_CONSECUTIVE_LEADER_SLOTS + j < SLOTS_IN_EPOCH →
        ls.getD (g * NUM_CONSECUTIVE_LEADER_SLOTS + j) 0 =
          ls.getD (g * NUM_CONSECUTIVE_LEADER_SLOTS) 0) ∧
      (∀ g, g < SLOTS_IN_EPOCH / NUM_CONSECUTIVE_LEADER_SLOTS →
        ls.getD (g * NUM_CONSECUTIVE_LEADER_SLOTS) 0 =
          (weightedShuffle (scheduleSeed 0) (sortStakes [(1, 1)])).getD
            (g % (weightedShuffle (scheduleSeed 0) (sortStakes [(1, 1)])).length) 0)) :=
  ⟨by decide, slot_count_and_groups 0 [(1, 1)] (by decide)⟩

/-- C7 counterexample: with current epoch 5 the program schedules for epoch
6, yet the record with deactivation_epoch 5 - inactive at the target epoch 6
- still enters the aggregated table: the activation/deactivation filter is
applied against the current epoch 5, not against the target epoch 6 as the
claim states. -/
theorem target_epoch_filter_counterexample :
    aggregateAccounts [(1, ⟨100, .ok (.Stake 0 ⟨7, 10, 3, 5⟩)⟩)] 5 [] =
      .ok [(7, 10)] ∧
    isActive ⟨7, 10, 3, 5⟩ 5 = true ∧
    isActive ⟨7, 10, 3, 5⟩ 6 = false ∧
    aggregate [⟨7, 10, 3, 5⟩] 6 = [] := by
  refine ⟨rfl, by decide, by decide, by decide⟩

/-- C7 amended: the schedule target epoch is current_epoch + 1, but the
aggregation filter is applied against current_epoch: the table handed to the
scheduler contains exactly the validators with a Stake-variant record active
at current_epoch, one epoch before the schedule's target. -/
theorem target_epoch_amended (accs : List (Nat × Account)) (ce : Nat)
    (m : List (Nat × Nat)) (hagg : aggregateAccounts accs ce [] = .ok m) :
    (mainOutput accs ce =
      match leaderSchedule (ce + 1) m with
      | .error e2 => .error e2
      | .ok ls => .ok (ce + 1, ls)) ∧
    (∀ k, k ∈ m.map Prod.fst ↔
      ∃ pk a meta1 d, (pk, a) ∈ accs ∧ a.dataLen ≠ 0 ∧
        a.decoded = DecodeResult.ok (StakeState.Stake meta1 d) ∧
        isActive d ce = true ∧ d.voter_pubkey = k) := by
  constructor
  · unfold mainOutput
    rw [hagg]
  · intro k
    have hm := aggregateAccounts_ok ce accs [] m hagg
    rw [hm, mem_fst_foldl]
    simp only [List.map_nil, List.not_mem_nil, false_or]
    constructor
    · rintro ⟨r, hr, hact, hv⟩
      rcases (mem_accountDelegations r accs).mp hr with ⟨pk, a, meta1, hmem, hne, hdec⟩
      exact ⟨pk, a, meta1, r, hmem, hne, hdec, hact, hv⟩
    · rintro ⟨pk, a, meta1, d, hmem, hne, hdec, hact, hv⟩
      exact ⟨d, (mem_accountDelegations d accs).mpr ⟨pk, a, meta1, hmem, hne, hdec⟩,
        hact, hv⟩

/-- Witness for the amended C7 on a single active record. -/
theorem target_epoch_amended_witness :
    (aggregateAccounts [(1, ⟨100, .ok (.Stake 0 ⟨7, 10, 3, 6⟩)⟩)] 5 [] =
      .ok [(7, 10)]) ∧
    ((mainOutput [(1, ⟨100, .ok (.Stake 0 ⟨7, 10, 3, 6⟩)⟩)] 5 =
      match leaderSchedule 6 [(7, 10)] with
      | .error e2 => .error e2
      | .ok ls => .ok (6, ls)) ∧
     (∀ k, k ∈ ([(7, 10)] : List (Nat × Nat)).map Prod.fst ↔
      ∃ pk a meta1 d,
        (pk, a) ∈ [((1 : Nat), (⟨100, .ok (.Stake 0 ⟨7, 10, 3, 6⟩)⟩ : Account))] ∧
        a.dataLen ≠ 0 ∧
        a.decoded = DecodeResult.ok (StakeState.Stake meta1 d) ∧
        isActive d 5 = true ∧ d.voter_pubkey = k)) :=
  ⟨rfl,
   target_epoch_amended [(1, ⟨100, .ok (.Stake 0 ⟨7, 10, 3, 6⟩)⟩)] 5 [(7, 10)]
     rfl⟩
